import Mathlib

/-!
Verification of the Hydro contest model (`packages/hydrooj/src/model/contest.ts`).

Shallow embedding conventions:
* JavaScript `Date` values and submission instants (`rid.getTimestamp()`) are
  modelled as `Int` milliseconds since the epoch.
* JavaScript numbers used in exact integer positions are `Int`/`Nat`;
  the Ledo decay coefficients (`0.95 ** n`, `Math.round`) are modelled over `ℚ`.
* JavaScript objects used as integer-keyed dictionaries are association lists
  with ascending keys maintained by `amSet` (JS iterates integer keys in
  ascending order); `Counter()` (a map defaulting to `0`) is `cGet`/`cInc`.
* Mutation of journal entries (done in place by `strictioi.stat`) is made
  explicit: the function returns the mutated journal next to the aggregate.
-/

namespace Hydro

/-- Verdict codes from the `STATUS` enum (`model/builtin`, outside `src/`).
Modelled from the spec: only the identity of the accepted / compile-error /
format-error verdicts matters to the scoring rules, so the three are fixed as
distinct integers and all remaining verdicts are any other integers. -/
def STATUS_ACCEPTED : Int := 1

/-- Compile-error verdict code (see `STATUS_ACCEPTED`). -/
def STATUS_COMPILE_ERROR : Int := 7

/-- Wrong-answer verdict code, a representative ordinary verdict. -/
def STATUS_WRONG_ANSWER : Int := 2

/-- Format-error verdict code (see `STATUS_ACCEPTED`). -/
def STATUS_FORMAT_ERROR : Int := 31

/-- Contest configuration (`Tdoc`), restricted to the fields the scoring and
lifecycle code reads. `lockAt = none` models an absent freeze instant,
`duration` is in hours (may be fractional), `penaltyRules` maps an hour offset
to a score coefficient. -/
structure Tdoc where
  beginAt : Int
  endAt : Int
  lockAt : Option Int
  unlocked : Bool
  pids : List Nat
  duration : Option ℚ
  penaltySince : Int
  penaltyRules : List (ℚ × ℚ)
deriving Repr, DecidableEq

/-- The slice of a participant's status document (`tsdoc`) read by the
lifecycle predicates: the individual start instant. -/
structure TsdocTime where
  startAt : Int
deriving Repr, DecidableEq

/-- `Time.hour` from `@hydrooj/utils`: one hour in milliseconds. -/
def timeHour : ℚ := 3600000

/-- `isLocked(tdoc)`: a freeze instant exists, is in the past, and has not been
manually cleared.  The wall clock `new Date()` is the explicit `now`. -/
def isLocked (t : Tdoc) (now : Int) : Bool :=
  match t.lockAt with
  | none => false
  | some l => decide (l < now) && !t.unlocked

/-- The individual-duration test shared by `isOngoing` and `isDone`:
`tsdoc && tdoc.duration && tsdoc.startAt <= new Date(Date.now() - Math.floor(tdoc.duration * Time.hour))`.
A `duration` of `0` is falsy in JS and disables the test. -/
def durationExhausted (t : Tdoc) (ts : Option TsdocTime) (now : Int) : Bool :=
  match ts, t.duration with
  | some s, some d => !(d == 0) && decide (s.startAt ≤ now - Int.floor (d * timeHour))
  | _, _ => false

/-- `isOngoing(tdoc, tsdoc)` evaluated at the single instant `now`. -/
def isOngoing (t : Tdoc) (ts : Option TsdocTime) (now : Int) : Bool :=
  if durationExhausted t ts now then false
  else decide (t.beginAt ≤ now) && decide (now < t.endAt)

/-- `isDone(tdoc, tsdoc)` evaluated at the single instant `now`. -/
def isDone (t : Tdoc) (ts : Option TsdocTime) (now : Int) : Bool :=
  if decide (t.endAt ≤ now) then true
  else durationExhausted t ts now

/-- Lookup in an integer-keyed association list (a JS object acting as a
dictionary); returns the first binding, mirroring property lookup. -/
def amGet {α : Type} : List (Nat × α) → Nat → Option α
  | [], _ => none
  | (k', v) :: rest, k => if k' = k then some v else amGet rest k

/-- Update/insert in an integer-keyed association list.  JS objects iterate
integer keys in ascending order, so a fresh key is inserted in order. -/
def amSet {α : Type} : List (Nat × α) → Nat → α → List (Nat × α)
  | [], k, v => [(k, v)]
  | (k', v') :: rest, k, v =>
    if k = k' then (k, v) :: rest
    else if k < k' then (k, v) :: (k', v') :: rest
    else (k', v') :: amSet rest k v

/-- `Counter()` read (`@hydrooj/utils`): missing keys read as `0`.
Modelled from the spec: the rules "count prior ... attempts", i.e. a
zero-defaulting tally map. -/
def cGet (m : List (Nat × Nat)) (k : Nat) : Nat := (amGet m k).getD 0

/-- `counter[k]++`. -/
def cInc (m : List (Nat × Nat)) (k : Nat) : List (Nat × Nat) :=
  amSet m k (cGet m k + 1)

end Hydro

namespace Hydro

/-- A journal entry as consumed by `acm.stat` (`AcmJournal`): submission
instant (`rid.getTimestamp()`), problem id, raw score, verdict, judging time. -/
structure AcmJournal where
  rid : Int
  pid : Nat
  score : Int
  status : Int
  time : Int
deriving Repr, DecidableEq

/-- An authoritative per-problem entry built by `acm.stat` (`AcmDetail`):
the spread of the journal entry plus attempt count, recomputed time,
raw elapsed time and penalty. -/
structure AcmDetail where
  rid : Int
  pid : Nat
  score : Int
  status : Int
  naccept : Nat
  time : Int
  real : Int
  penalty : Int
deriving Repr, DecidableEq

/-- A `display` slot of `acm.stat`: either the authoritative entry copied over
(`core = some d`) or the bare `{}` object created by `display[j.pid] ||= {}`
(`core = none`), in both cases optionally carrying the pending counter. -/
structure AcmDisplay where
  core : Option AcmDetail
  npending : Option Nat
deriving Repr, DecidableEq

/-- The loop state of `acm.stat`. -/
structure AcmState where
  naccept : List (Nat × Nat)
  npending : List (Nat × Nat)
  detail : List (Nat × AcmDetail)
  display : List (Nat × AcmDisplay)
deriving Repr, DecidableEq

/-- `display[j.pid]?.status === STATUS.STATUS_ACCEPTED`. -/
def acmDisplayAccepted (display : List (Nat × AcmDisplay)) (p : Nat) : Bool :=
  match amGet display p with
  | some e =>
    match e.core with
    | some c => c.status == STATUS_ACCEPTED
    | none => false
  | none => false

/-- A status outside `[ACCEPTED, COMPILE_ERROR, FORMAT_ERROR]` — the entries
that increment `naccept` (penalized attempts). -/
def acmPenalized (status : Int) : Bool :=
  !(status == STATUS_ACCEPTED || status == STATUS_COMPILE_ERROR
    || status == STATUS_FORMAT_ERROR)

/-- The authoritative entry `acm.stat` builds for journal entry `j`:
`{...j, naccept: naccept[j.pid], time: real + penalty, real, penalty}`. -/
def acmMkDetail (beginAt : Int) (naccept : List (Nat × Nat)) (j : AcmJournal) :
    AcmDetail :=
  let real : Int := Int.fdiv (j.rid - beginAt) 1000
  let penalty : Int := 20 * 60 * (cGet naccept j.pid : Int)
  { rid := j.rid, pid := j.pid, score := j.score, status := j.status,
    naccept := cGet naccept j.pid, time := real + penalty,
    real := real, penalty := penalty }

/-- One iteration of the `acm.stat` loop body over journal entry `j`.
`saa` is `this.submitAfterAccept` (false for the acm rule), `lockAt` is the
already-resolved freeze instant (`null` when not locked). -/
def acmStep (saa : Bool) (lockAt : Option Int) (beginAt : Int)
    (st : AcmState) (j : AcmJournal) : AcmState :=
  if !saa && acmDisplayAccepted st.display j.pid then st
  else
    let d : AcmDetail := acmMkDetail beginAt st.naccept j
    let st₁ : AcmState := { st with detail := amSet st.detail j.pid d }
    let st₂ : AcmState :=
      if acmPenalized j.status then { st₁ with naccept := cInc st₁.naccept j.pid }
      else st₁
    match lockAt with
    | some l =>
      if j.rid > l then
        let np := cInc st₂.npending j.pid
        let oldCore : Option AcmDetail :=
          match amGet st₂.display j.pid with
          | some e => e.core
          | none => none
        { st₂ with npending := np,
                   display := amSet st₂.display j.pid ⟨oldCore, some (cGet np j.pid)⟩ }
      else { st₂ with display := amSet st₂.display j.pid ⟨some d, none⟩ }
    | none => { st₂ with display := amSet st₂.display j.pid ⟨some d, none⟩ }

/-- The aggregate produced by `acm.stat`. -/
structure AcmResult where
  accept : Nat
  time : Int
  detail : List (Nat × AcmDetail)
  display : List (Nat × AcmDisplay)
deriving Repr, DecidableEq

/-- Is a display slot an accepted authoritative entry
(`i.status === STATUS.STATUS_ACCEPTED` over `Object.values(display)`)? -/
def acmSlotAccepted (e : AcmDisplay) : Bool :=
  match e.core with
  | some c => c.status == STATUS_ACCEPTED
  | none => false

/-- The recorded time of a display slot (only read on accepted slots). -/
def acmSlotTime (e : AcmDisplay) : Int :=
  match e.core with
  | some c => c.time
  | none => 0

/-- The accepted display slots
(`Object.values(display).filter((i) => i.status === STATUS.STATUS_ACCEPTED)`). -/
def acmAcceptedSlots (display : List (Nat × AcmDisplay)) : List AcmDisplay :=
  (display.map Prod.snd).filter acmSlotAccepted

/-- `acm.stat(tdoc, journal)`.  Note: unlike every other rule, the loop does
not filter the journal by `tdoc.pids`. -/
def acmStat (saa : Bool) (t : Tdoc) (now : Int) (journal : List AcmJournal) :
    AcmResult :=
  let lockAt : Option Int := if isLocked t now then t.lockAt else none
  let st := journal.foldl (acmStep saa lockAt t.beginAt) ⟨[], [], [], []⟩
  { accept := (acmAcceptedSlots st.display).length,
    time := ((acmAcceptedSlots st.display).map acmSlotTime).sum,
    detail := st.detail,
    display := st.display }

end Hydro

namespace Hydro

/-- A journal entry as consumed by `oi.stat` / `ledo.stat`. -/
structure OiEntry where
  rid : Int
  pid : Nat
  score : Int
  status : Int
deriving Repr, DecidableEq

/-- A `display` slot of `oi.stat`: the journal entry copied over
(`core = some j`) or the bare object from `display[j.pid] ||= {}`,
optionally carrying the pending counter. -/
structure OiDisplay where
  core : Option OiEntry
  npending : Option Nat
deriving Repr, DecidableEq

/-- The loop state of `oi.stat`. -/
structure OiState where
  npending : List (Nat × Nat)
  detail : List (Nat × OiEntry)
  display : List (Nat × OiDisplay)
deriving Repr, DecidableEq

/-- One iteration of the `oi.stat` loop body.  `saa` is
`this.submitAfterAccept` (true for oi, false for the derived ioi). -/
def oiStep (saa : Bool) (lockAt : Option Int) (st : OiState) (j : OiEntry) :
    OiState :=
  let take : Bool :=
    match amGet st.detail j.pid with
    | none => true
    | some d => decide (d.score < j.score) || saa
  if take then
    let st₁ : OiState := { st with detail := amSet st.detail j.pid j }
    let st₂ : OiState :=
      match amGet st₁.display j.pid with
      | some _ => st₁
      | none => { st₁ with display := amSet st₁.display j.pid ⟨none, none⟩ }
    match lockAt with
    | some l =>
      if j.rid > l then
        let np := cInc st₂.npending j.pid
        let oldCore : Option OiEntry :=
          match amGet st₂.display j.pid with
          | some e => e.core
          | none => none
        { st₂ with npending := np,
                   display := amSet st₂.display j.pid ⟨oldCore, some (cGet np j.pid)⟩ }
      else { st₂ with display := amSet st₂.display j.pid ⟨some j, none⟩ }
    | none => { st₂ with display := amSet st₂.display j.pid ⟨some j, none⟩ }
  else st

/-- The aggregate produced by `oi.stat`. -/
structure OiResult where
  score : Int
  detail : List (Nat × OiEntry)
  display : List (Nat × OiDisplay)
deriving Repr, DecidableEq

/-- `display[i].score || 0` summed over the display slots. -/
def oiSlotScore (e : OiDisplay) : Int :=
  match e.core with
  | some c => c.score
  | none => 0

/-- `for (const i in display) score += display[i].score || 0`. -/
def oiDisplaySum (display : List (Nat × OiDisplay)) : Int :=
  (display.map (fun kv => oiSlotScore kv.2)).sum

/-- `oi.stat(tdoc, journal)`; the journal is filtered by `tdoc.pids` first. -/
def oiStat (saa : Bool) (t : Tdoc) (now : Int) (journal : List OiEntry) :
    OiResult :=
  let lockAt : Option Int := if isLocked t now then t.lockAt else none
  let st := (journal.filter (fun j => t.pids.contains j.pid)).foldl
    (oiStep saa lockAt) ⟨[], [], []⟩
  { score := oiDisplaySum st.display,
    detail := st.detail,
    display := st.display }

/-- An authoritative per-problem entry of `ledo.stat`: the journal entry plus
the decayed score and the stored retry count (`ntry[j.pid] - 1`, which is `-1`
for an invalid first attempt, hence an `Int`). -/
structure LedoDetail where
  rid : Int
  pid : Nat
  score : Int
  status : Int
  penaltyScore : Int
  ntry : Int
deriving Repr, DecidableEq

/-- `Math.round` over an exact rational in place of an IEEE double:
round half toward positive infinity. -/
def jsRound (q : ℚ) : Int := ⌊q + 1 / 2⌋

/-- A valid Ledo attempt: status outside `[COMPILE_ERROR, FORMAT_ERROR]`. -/
def ledoValid (status : Int) : Bool :=
  !(status == STATUS_COMPILE_ERROR || status == STATUS_FORMAT_ERROR)

/-- The Ledo decay coefficient `Math.max(0.7, 0.95 ** n)`. -/
def ledoCoef (n : Nat) : ℚ := max (7 / 10 : ℚ) ((19 / 20 : ℚ) ^ n)

/-- `vaild ? Math.round(Math.max(0.7, 0.95 ** (ntry[j.pid] - 1)) * j.score) : 0`
with `n = ntry[j.pid]` after the increment. -/
def ledoPenaltyScore (valid : Bool) (n : Nat) (score : Int) : Int :=
  if valid then jsRound (ledoCoef (n - 1) * (score : ℚ)) else 0

/-- The updated `detail` map of one `ledo.stat` iteration: keep the entry with
the strictly higher penalized score. -/
def ledoDetailUpd (det : List (Nat × LedoDetail)) (n : Nat) (j : OiEntry) :
    List (Nat × LedoDetail) :=
  let ps := ledoPenaltyScore (ledoValid j.status) n j.score
  let keep : Bool :=
    match amGet det j.pid with
    | none => true
    | some d => decide (d.penaltyScore < ps)
  if keep then amSet det j.pid ⟨j.rid, j.pid, j.score, j.status, ps, (n : Int) - 1⟩
  else det

/-- One iteration of the `ledo.stat` loop body; the state is the `ntry`
counter and the `detail` map. -/
def ledoStep (st : List (Nat × Nat) × List (Nat × LedoDetail)) (j : OiEntry) :
    List (Nat × Nat) × List (Nat × LedoDetail) :=
  let ntry := if ledoValid j.status then cInc st.1 j.pid else st.1
  (ntry, ledoDetailUpd st.2 (cGet ntry j.pid) j)

/-- The aggregate produced by `ledo.stat`. -/
structure LedoResult where
  score : Int
  originalScore : Int
  detail : List (Nat × LedoDetail)
deriving Repr, DecidableEq

/-- `ledo.stat(tdoc, journal)`: filter by `tdoc.pids`, fold the decayed-score
loop, then sum `penaltyScore` / `score` over the problems of `tdoc.pids`. -/
def ledoStat (t : Tdoc) (journal : List OiEntry) : LedoResult :=
  let st := (journal.filter (fun j => t.pids.contains j.pid)).foldl
    ledoStep ([], [])
  let score := (t.pids.map (fun p =>
    match amGet st.2 p with
    | some d => d.penaltyScore
    | none => 0)).sum
  let originalScore := (t.pids.map (fun p =>
    match amGet st.2 p with
    | some d => d.score
    | none => 0)).sum
  { score := score, originalScore := originalScore, detail := st.2 }

/-- A per-subtask result (`SubtaskResult`). -/
structure Subtask where
  score : Int
  status : Int
deriving Repr, DecidableEq

/-- A journal entry as consumed by `strictioi.stat`; the `status` field is
`WithBot Int` because the in-place mutation writes
`Math.max(...)` over the subtask statuses, which is `-Infinity` when the
accumulator is empty. -/
structure StrictEntry where
  rid : Int
  pid : Nat
  score : Int
  status : WithBot Int
  subtasks : List (Nat × Subtask)
deriving DecidableEq

/-- The per-subtask-index merge of `strictioi.stat`:
`if (!subtasks[i] || subtasks[i].score < j.subtasks[i].score) subtasks[i] = j.subtasks[i]`
for each subtask index of the entry, in ascending key order. -/
def mergeSubtasks (acc : List (Nat × Subtask)) (js : List (Nat × Subtask)) :
    List (Nat × Subtask) :=
  js.foldl (fun a kv =>
    match amGet a kv.1 with
    | none => amSet a kv.1 kv.2
    | some cur => if cur.score < kv.2.score then amSet a kv.1 kv.2 else a) acc

/-- The loop state of `strictioi.stat`: the (rule-global) subtask accumulator,
the detail map, and the processed entries in reverse order (their `score` and
`status` fields carry the snapshot written back into the journal). -/
structure StrictState where
  subtasks : List (Nat × Subtask)
  detail : List (Nat × StrictEntry)
  outRev : List StrictEntry
deriving DecidableEq

/-- One iteration of the `strictioi.stat` loop.  Entries outside `tdoc.pids`
are passed through unmodified (the filter skips them); processed entries are
mutated in place: `j.score`/`j.status` become the cumulative snapshot and
`j.subtasks` is aliased to the live accumulator. -/
def strictStep (pids : List Nat) (st : StrictState) (j : StrictEntry) :
    StrictState :=
  if pids.contains j.pid then
    let subs := mergeSubtasks st.subtasks j.subtasks
    let score := (subs.map (fun kv => kv.2.score)).sum
    let j' : StrictEntry :=
      { rid := j.rid, pid := j.pid, score := score,
        status := (subs.map (fun kv => kv.2.status)).maximum, subtasks := subs }
    let detail :=
      match amGet st.detail j.pid with
      | none => amSet st.detail j.pid j'
      | some d => if d.score < j'.score then amSet st.detail j.pid j' else st.detail
    { subtasks := subs, detail := detail, outRev := j' :: st.outRev }
  else
    { st with outRev := j :: st.outRev }

/-- The aggregate produced by `strictioi.stat` (no `display` is returned). -/
structure StrictResult where
  score : Int
  detail : List (Nat × StrictEntry)
deriving DecidableEq

/-- Patch the aliasing of `j.subtasks = subtasks`: at the end of the loop,
every processed entry's `subtasks` field refers to the final accumulator. -/
def strictPatch (finalSubs : List (Nat × Subtask)) (pids : List Nat)
    (e : StrictEntry) : StrictEntry :=
  if pids.contains e.pid then { e with subtasks := finalSubs } else e

/-- `strictioi.stat(tdoc, journal)`, returning the aggregate together with the
journal as mutated by the loop (scores/statuses are per-entry snapshots, all
processed `subtasks` fields alias the final accumulator). -/
def strictioiStat (t : Tdoc) (journal : List StrictEntry) :
    StrictResult × List StrictEntry :=
  let st := journal.foldl (strictStep t.pids) ⟨[], [], []⟩
  let out := (st.outRev.reverse).map (strictPatch st.subtasks t.pids)
  let detail := st.detail.map (fun kv => (kv.1, strictPatch st.subtasks t.pids kv.2))
  ({ score := (st.detail.map (fun kv => kv.2.score)).sum, detail := detail }, out)

/-- An authoritative per-problem entry of `homework.stat`: the latest journal
entry per problem, with `penaltyScore` and `time` written onto it. -/
structure HwDetail where
  rid : Int
  pid : Nat
  score : Int
  status : Int
  penaltyScore : ℚ
  time : Int
deriving Repr, DecidableEq

/-- `penaltyScore(jdoc)` of `homework.stat`: look up the coefficient from the
hour-offset table `penaltyRules` (keys sorted ascending, last offset not past
the exceeded time wins), no penalty before `penaltySince`. -/
def hwPenaltyScore (t : Tdoc) (j : OiEntry) : ℚ :=
  let exceedSeconds := Int.fdiv (j.rid - t.penaltySince) 1000
  if exceedSeconds < 0 then (j.score : ℚ)
  else
    let keys := (t.penaltyRules.map Prod.fst).mergeSort (fun a b => a ≤ b)
    let coefficient := keys.foldl (fun c k =>
      if k * 3600 ≤ (exceedSeconds : ℚ) then
        match t.penaltyRules.lookup k with
        | some v => v
        | none => c
      else c) 1
    (j.score : ℚ) * coefficient

/-- `time(jdoc)` of `homework.stat`. -/
def hwTime (t : Tdoc) (j : OiEntry) : Int := Int.fdiv (j.rid - t.beginAt) 1000

/-- The aggregate produced by `homework.stat`. -/
structure HwResult where
  score : Int
  penaltyScore : ℚ
  time : Int
  detail : List (Nat × HwDetail)
deriving Repr, DecidableEq

/-- `homework.stat(tdoc, journal)`: keep the latest entry per problem of
`tdoc.pids`, attach penalty score and elapsed time, and sum.  `Math.sum` (a
`@hydrooj/utils` extension) is modelled from the spec: the total-time reducer
yields `0` on an empty list. -/
def hwStat (t : Tdoc) (journal : List OiEntry) : HwResult :=
  let effective := journal.foldl (fun m j =>
    if t.pids.contains j.pid then amSet m j.pid j else m) []
  let detail := effective.map (fun kv =>
    (kv.1, ({ rid := kv.2.rid, pid := kv.2.pid, score := kv.2.score,
              status := kv.2.status, penaltyScore := hwPenaltyScore t kv.2,
              time := hwTime t kv.2 } : HwDetail)))
  { score := (detail.map (fun kv => kv.2.score)).sum,
    penaltyScore := (detail.map (fun kv => kv.2.penaltyScore)).sum,
    time := (detail.map (fun kv => kv.2.time)).sum,
    detail := detail }

end Hydro

namespace Hydro

/-- Modelled from the spec: the ranking primitive `ranked` of `lib/rank`
(§4.1, not under `src/`): standard competition ranking — the element at
1-based position `pos` gets the previous element's rank when the tie
predicate holds, and rank `pos` otherwise. -/
def rankedAux {α : Type} (equ : α → α → Bool) :
    List α → Nat → Nat → α → List (Nat × α)
  | [], _, _, _ => []
  | x :: rest, pos, lastRank, lastElem =>
    let r := if equ lastElem x then lastRank else pos
    (r, x) :: rankedAux equ rest (pos + 1) r x

/-- Modelled from the spec: `ranked(cursor, equ)` — see `rankedAux`;
the first element receives rank 1. -/
def rankedList {α : Type} (equ : α → α → Bool) : List α → List (Nat × α)
  | [] => []
  | x :: rest => (1, x) :: rankedAux equ rest 2 1 x

/-- A standings document as seen by the ranking predicates: the aggregate
fields are JS object properties which may be absent (`none` models
`undefined`, and `Option` equality models `===`, under which
`undefined === undefined` is true). -/
structure Standing where
  score : Option Int
  accept : Option Int
  time : Option Int
deriving Repr, DecidableEq

/-- The tie predicate used inside `acm.scoreboard`:
`(a, b) => a.score === b.score && a.time === b.time`. -/
def acmScoreboardTie (a b : Standing) : Bool :=
  a.score == b.score && a.time == b.time

/-- The tie predicate used by `acm.ranked`:
`(a, b) => a.accept === b.accept && a.time === b.time`. -/
def acmRankedTie (a b : Standing) : Bool :=
  a.accept == b.accept && a.time == b.time

/-- The standings document stored for an ACM participant: the journal plus the
spread of `acm.stat`'s aggregate — which has `accept` and `time` fields but no
`score` field. -/
def acmStanding (r : AcmResult) : Standing :=
  { score := none, accept := some (r.accept : Int), time := some r.time }

/-- The data fields of a contest rule that the modelled code reads (label,
hidden flag, `submitAfterAccept`, and a representative plain function-valued
field, `showScoreboard`, which `buildContestRule` copies without rebinding). -/
structure RuleData where
  TEXT : String
  hidden : Bool
  submitAfterAccept : Bool
  showScoreboard : Tdoc → Int → Bool

/-- The `_originalRule` slot: the unbound originals of the four function
fields.  `this`-accesses are made explicit: `stat`, `scoreboardRow` and
`scoreboardHeader` read only data fields of `this`, while `scoreboard` also
calls `this.scoreboardHeader` and `this.scoreboardRow`, so its original takes
the resolved bound versions as arguments. -/
structure OrigFuncs (H R S B : Type) where
  scoreboardHeader : RuleData → H
  scoreboardRow : RuleData → R
  stat : RuleData → S
  scoreboard : RuleData → H → R → B

/-- A built contest rule: merged data fields, the four function fields bound
to this very rule (`f[key].bind(rule)`), and `_originalRule`. -/
structure BuiltRule (H R S B : Type) where
  data : RuleData
  scoreboardHeader : H
  scoreboardRow : R
  stat : S
  scoreboard : B
  origFuncs : OrigFuncs H R S B

/-- A partial rule definition (`Partial<ContestRule>`): present keys override
the base rule. -/
structure RuleDefn (H R S B : Type) where
  TEXT : Option String
  hidden : Option Bool
  submitAfterAccept : Option Bool
  showScoreboard : Option (Tdoc → Int → Bool)
  scoreboardHeader : Option (RuleData → H)
  scoreboardRow : Option (RuleData → R)
  stat : Option (RuleData → S)
  scoreboard : Option (RuleData → H → R → B)

/-- `buildContestRule(def)` — the base overload (`baseRule = {}`), requiring
every field of the definition. -/
def buildContestRuleBase {H R S B : Type} (dat : RuleData) (f : OrigFuncs H R S B) :
    BuiltRule H R S B :=
  { data := dat,
    scoreboardHeader := f.scoreboardHeader dat,
    scoreboardRow := f.scoreboardRow dat,
    stat := f.stat dat,
    scoreboard := f.scoreboard dat (f.scoreboardHeader dat) (f.scoreboardRow dat),
    origFuncs := f }

/-- `buildContestRule(def, baseRule)` — the deriving overload: spread the base
rule, overwrite with the supplied fields, pick each of the four function
fields from the definition or from the base's `_originalRule`, and bind them
to the merged rule (so `this.scoreboardRow` inside an inherited `scoreboard`
resolves to the derived version). -/
def buildContestRuleDerived {H R S B : Type} (d : RuleDefn H R S B)
    (base : BuiltRule H R S B) : BuiltRule H R S B :=
  let f : OrigFuncs H R S B :=
    { scoreboardHeader := d.scoreboardHeader.getD base.origFuncs.scoreboardHeader,
      scoreboardRow := d.scoreboardRow.getD base.origFuncs.scoreboardRow,
      stat := d.stat.getD base.origFuncs.stat,
      scoreboard := d.scoreboard.getD base.origFuncs.scoreboard }
  let dat : RuleData :=
    { TEXT := d.TEXT.getD base.data.TEXT,
      hidden := d.hidden.getD base.data.hidden,
      submitAfterAccept := d.submitAfterAccept.getD base.data.submitAfterAccept,
      showScoreboard := d.showScoreboard.getD base.data.showScoreboard }
  { data := dat,
    scoreboardHeader := f.scoreboardHeader dat,
    scoreboardRow := f.scoreboardRow dat,
    stat := f.stat dat,
    scoreboard := f.scoreboard dat (f.scoreboardHeader dat) (f.scoreboardRow dat),
    origFuncs := f }

/-- The unbound `oi.stat`, reading `this.submitAfterAccept` from the rule. -/
def oiStatOrig : RuleData → Tdoc → Int → List OiEntry → OiResult :=
  fun dat => oiStat dat.submitAfterAccept

/-- The `oi` rule built with its `stat` modelled and the (unmodelled,
database-bound) scoreboard functions collapsed to `Unit`. -/
def oiBuilt : BuiltRule Unit Unit (Tdoc → Int → List OiEntry → OiResult) Unit :=
  buildContestRuleBase
    { TEXT := "OI", hidden := false, submitAfterAccept := true,
      showScoreboard := fun t now => decide (t.endAt < now) }
    { scoreboardHeader := fun _ => (), scoreboardRow := fun _ => (),
      stat := oiStatOrig, scoreboard := fun _ _ _ => () }

/-- The `ioi` definition: derived from `oi`, overriding label, timing
predicates and `submitAfterAccept` but none of the four function fields. -/
def ioiDefn : RuleDefn Unit Unit (Tdoc → Int → List OiEntry → OiResult) Unit :=
  { TEXT := some "IOI", hidden := none, submitAfterAccept := some false,
    showScoreboard := some (fun t now => decide (t.beginAt < now)),
    scoreboardHeader := none, scoreboardRow := none, stat := none,
    scoreboard := none }

/-- The built `ioi` rule. -/
def ioiBuilt : BuiltRule Unit Unit (Tdoc → Int → List OiEntry → OiResult) Unit :=
  buildContestRuleDerived ioiDefn oiBuilt

/-- The keys of the `RULES` registry. -/
def RULES_KEYS : List String := ["acm", "oi", "homework", "ioi", "ledo", "strictioi"]

/-- `!!RULES[rule]`. -/
def ruleExists (r : String) : Bool := RULES_KEYS.contains r

/-- The errors the modelled contest CRUD can raise. -/
inductive ContestError where
  | validationRule
  | validationBeginEnd
  | notFound
deriving Repr, DecidableEq

/-- The stored contest document slice written by `add`/`edit`. -/
structure StoredContest where
  rule : String
  beginAt : Int
  endAt : Int
  pids : List Nat
deriving Repr, DecidableEq

/-- `add(...)`: reject an unknown rule, then `beginAt >= endAt`, then run the
rule's `check` (a no-op `() => {}` for every rule) and store the document.
An error leaves the store untouched: no document is produced. -/
def addContest (rule : String) (beginAt endAt : Int) (pids : List Nat) :
    Except ContestError StoredContest :=
  if !ruleExists rule then .error .validationRule
  else if beginAt ≥ endAt then .error .validationBeginEnd
  else .ok ⟨rule, beginAt, endAt, pids⟩

/-- The `$set` argument of `edit`. -/
structure EditSet where
  rule : Option String
  beginAt : Option Int
  endAt : Option Int
deriving Repr, DecidableEq

/-- `edit(domainId, tid, $set)`: reject `$set.rule` when set and unknown,
reject a missing contest, run the rule's no-op `check` on the merged document,
and store the merge.  No `beginAt`/`endAt` comparison occurs. -/
def editContest (s : EditSet) (stored : Option StoredContest) :
    Except ContestError StoredContest :=
  match s.rule with
  | some r =>
    if !ruleExists r then .error .validationRule
    else
      match stored with
      | none => .error .notFound
      | some t => .ok { rule := r, beginAt := s.beginAt.getD t.beginAt,
                        endAt := s.endAt.getD t.endAt, pids := t.pids }
  | none =>
    match stored with
    | none => .error .notFound
    | some t => .ok { rule := t.rule, beginAt := s.beginAt.getD t.beginAt,
                      endAt := s.endAt.getD t.endAt, pids := t.pids }

/-- The number of valid (non compile/format-error) Ledo attempts on problem
`p` within a journal segment. -/
def ledoValidCount (p : Nat) (c : List OiEntry) : Nat :=
  (c.filter (fun e => e.pid == p && ledoValid e.status)).length

/-- The per-problem correctness statement for a Ledo `detail` entry `d` over
the (pids-filtered) journal `c`: `d` is built from some journal entry `e` of
problem `p`; if `e` is valid and is the `n`-th valid attempt (so `v = n - 1`
valid attempts precede it), then `d.ntry = v` and
`d.penaltyScore = round(max(0.7, 0.95^v) * e.score)`; an invalid entry gets
penalized score `0` and stored `ntry = v - 1`. -/
def LedoEntryOk (c : List OiEntry) (p : Nat) (d : LedoDetail) : Prop :=
  ∃ k, ∃ hk : k < c.length, ∃ e : OiEntry, c.get ⟨k, hk⟩ = e ∧ e.pid = p
    ∧ d.rid = e.rid ∧ d.pid = p ∧ d.score = e.score ∧ d.status = e.status
    ∧ ((ledoValid e.status = true
          ∧ d.ntry = (ledoValidCount p (c.take k) : Int)
          ∧ d.penaltyScore
              = jsRound (max (7 / 10 : ℚ) ((19 / 20 : ℚ) ^ ledoValidCount p (c.take k))
                  * (e.score : ℚ)))
       ∨ (ledoValid e.status = false
          ∧ d.penaltyScore = 0
          ∧ d.ntry = (ledoValidCount p (c.take k) : Int) - 1))

/-- The invariant carried through the `ledo.stat` fold: after consuming the
journal prefix `c`, the retry counter of each problem equals the number of
valid attempts consumed, and every `detail` entry satisfies `LedoEntryOk`. -/
def LedoInv (c : List OiEntry) (st : List (Nat × Nat) × List (Nat × LedoDetail)) : Prop :=
  ∀ p : Nat, cGet st.1 p = ledoValidCount p c
    ∧ ∀ d, amGet st.2 p = some d → LedoEntryOk c p d

/-- The number of journal entries on problem `p` whose status is neither
accepted, compile-error nor format-error (the ACM penalized attempts),
within a journal segment. -/
def acmPenalizedCount (p : Nat) (c : List AcmJournal) : Nat :=
  (c.filter (fun e => e.pid == p && acmPenalized e.status)).length

/-- The per-problem correctness statement for an ACM `detail` entry `d` over
the journal `c`: `d` is built from some journal entry `e` of problem `p`,
its raw elapsed time is `floor((e.rid - beginAt) / 1000)` seconds, its
penalty is 20 minutes per prior penalized attempt on `p`, and its recorded
time is their sum. -/
def AcmEntryOk (beginAt : Int) (c : List AcmJournal) (p : Nat) (d : AcmDetail) : Prop :=
  ∃ k, ∃ hk : k < c.length, ∃ e : AcmJournal, c.get ⟨k, hk⟩ = e ∧ e.pid = p
    ∧ d.rid = e.rid ∧ d.pid = p ∧ d.score = e.score ∧ d.status = e.status
    ∧ d.naccept = acmPenalizedCount p (c.take k)
    ∧ d.real = Int.fdiv (e.rid - beginAt) 1000
    ∧ d.penalty = 20 * 60 * (acmPenalizedCount p (c.take k) : Int)
    ∧ d.time = d.real + d.penalty

/-- The invariant carried through the `acm.stat` fold (with
`submitAfterAccept = false`): after consuming the journal prefix `c`, for a
problem whose display is not yet accepted the `naccept` counter equals the
number of penalized attempts consumed (once the display is accepted the
counter is never read again, as later entries of that problem are skipped),
and every `detail` entry satisfies `AcmEntryOk`. -/
def AcmInv (beginAt : Int) (c : List AcmJournal) (st : AcmState) : Prop :=
  ∀ p : Nat,
    (acmDisplayAccepted st.display p = false → cGet st.naccept p = acmPenalizedCount p c)
    ∧ ∀ d, amGet st.detail p = some d → AcmEntryOk beginAt c p d

/-- The authoritative core visible through an ACM `display` slot: `none` for
an absent slot or a bare pending-only `{}` object. -/
def dispCoreA (display : List (Nat × AcmDisplay)) (p : Nat) : Option AcmDetail :=
  match amGet display p with
  | some e => e.core
  | none => none

/-- The authoritative core visible through an OI `display` slot. -/
def dispCoreO (display : List (Nat × OiDisplay)) (p : Nat) : Option OiEntry :=
  match amGet display p with
  | some e => e.core
  | none => none

/-- Did the operation succeed (no error thrown)? -/
def exOk {ε α : Type} : Except ε α → Bool
  | .ok _ => true
  | .error _ => false

/-- A demonstration `scoreboardRow` override whose result depends on the
merged rule data, used to exhibit virtual dispatch concretely. -/
def demoRowFunc : RuleData → Nat := fun dat => if dat.submitAfterAccept then 1 else 2

/-- A demonstration base rule (shape of `acm`) over miniature render types. -/
def demoBaseRule : BuiltRule Unit Nat Unit Nat :=
  buildContestRuleBase
    { TEXT := "ACM/ICPC", hidden := false, submitAfterAccept := false,
      showScoreboard := fun t now => decide (t.beginAt < now) }
    { scoreboardHeader := fun _ => (), scoreboardRow := fun _ => 0,
      stat := fun _ => (), scoreboard := fun _ _ row => row + 10 }

/-- A demonstration derived definition overriding only `scoreboardRow`. -/
def demoDerivedDefn : RuleDefn Unit Nat Unit Nat :=
  { TEXT := some "Derived", hidden := none, submitAfterAccept := some true,
    showScoreboard := none, scoreboardHeader := none,
    scoreboardRow := some demoRowFunc, stat := none, scoreboard := none }

end Hydro

namespace Hydro

theorem amGet_amSet_self {α : Type} (m : List (Nat × α)) (k : Nat) (v : α) :
    amGet (amSet m k v) k = some v := by
  induction m with
  | nil => simp [amSet, amGet]
  | cons hd tl ih =>
    obtain ⟨k', v'⟩ := hd
    by_cases hk : k = k'
    · simp [amSet, hk, amGet]
    · by_cases hlt : k < k'
      · simp [amSet, hk, hlt, amGet]
      · simp [amSet, hk, hlt, amGet, ih]
        intro h
        exact absurd h.symm hk

theorem amGet_amSet_ne {α : Type} (m : List (Nat × α)) (k k' : Nat) (v : α)
    (h : k' ≠ k) : amGet (amSet m k v) k' = amGet m k' := by
  have hne : ¬ k = k' := fun hh => h hh.symm
  induction m with
  | nil => simp [amSet, amGet, hne]
  | cons hd tl ih =>
    obtain ⟨k₀, v₀⟩ := hd
    by_cases hk : k = k₀
    · subst hk
      simp only [amSet, if_pos rfl, amGet]
      rw [if_neg hne, if_neg hne]
    · by_cases hlt : k < k₀
      · simp only [amSet, if_neg hk, if_pos hlt, amGet]
        rw [if_neg hne]
      · simp only [amSet, if_neg hk, if_neg hlt, amGet, ih]

theorem cGet_cInc_self (m : List (Nat × Nat)) (k : Nat) :
    cGet (cInc m k) k = cGet m k + 1 := by
  simp [cInc, cGet, amGet_amSet_self]

theorem cGet_cInc_ne (m : List (Nat × Nat)) (k k' : Nat) (h : k' ≠ k) :
    cGet (cInc m k) k' = cGet m k' := by
  simp [cInc, cGet, amGet_amSet_ne _ _ _ _ h]

theorem amGet_mem_keys {α : Type} (m : List (Nat × α)) (k : Nat) (v : α)
    (h : amGet m k = some v) : k ∈ m.map Prod.fst := by
  induction m with
  | nil => simp [amGet] at h
  | cons hd tl ih =>
    obtain ⟨k', v'⟩ := hd
    by_cases hk : k' = k
    · simp [hk]
    · simp [amGet, hk] at h
      simp [ih h]

theorem amSet_keys_subset {α : Type} (m : List (Nat × α)) (k j : Nat) (v : α) :
    j ∈ (amSet m k v).map Prod.fst → j ∈ m.map Prod.fst ∨ j = k := by
  induction m with
  | nil =>
    intro h
    simp [amSet] at h
    right; exact h
  | cons hd tl ih =>
    obtain ⟨k', v'⟩ := hd
    intro h
    by_cases hk : k = k'
    · subst hk
      rw [show amSet ((k, v') :: tl) k v = (k, v) :: tl from by simp [amSet]] at h
      simp only [List.map_cons, List.mem_cons] at h
      rcases h with h | h
      · right; exact h
      · left
        simp only [List.map_cons, List.mem_cons]
        right; exact h
    · by_cases hlt : k < k'
      · rw [show amSet ((k', v') :: tl) k v = (k, v) :: (k', v') :: tl from by
          simp [amSet, hk, hlt]] at h
        simp only [List.map_cons, List.mem_cons] at h
        rcases h with h | h | h
        · right; exact h
        · left; simp [h]
        · left
          simp only [List.map_cons, List.mem_cons]
          right; exact h
      · rw [show amSet ((k', v') :: tl) k v = (k', v') :: amSet tl k v from by
          simp [amSet, hk, hlt]] at h
        simp only [List.map_cons, List.mem_cons] at h
        rcases h with h | h
        · left; simp [h]
        · rcases ih h with hh | hh
          · left
            simp only [List.map_cons, List.mem_cons]
            right; exact hh
          · right; exact hh

theorem amSet_keys_pairwise {α : Type} (m : List (Nat × α)) (k : Nat) (v : α)
    (h : (m.map Prod.fst).Pairwise (· < ·)) :
    ((amSet m k v).map Prod.fst).Pairwise (· < ·) := by
  induction m with
  | nil => exact List.pairwise_singleton _ _
  | cons hd tl ih =>
    obtain ⟨k', v'⟩ := hd
    simp only [List.map_cons, List.pairwise_cons] at h
    by_cases hk : k = k'
    · subst hk
      rw [show amSet ((k, v') :: tl) k v = (k, v) :: tl from by simp [amSet]]
      simp only [List.map_cons, List.pairwise_cons]
      exact h
    · by_cases hlt : k < k'
      · simp only [amSet, if_neg hk, if_pos hlt]
        simp only [List.map_cons, List.pairwise_cons]
        refine ⟨?_, h.1, h.2⟩
        intro a ha
        simp only [List.map_cons, List.mem_cons] at ha
        rcases ha with ha | ha
        · omega
        · have := h.1 a ha
          omega
      · simp only [amSet, if_neg hk, if_neg hlt]
        simp only [List.map_cons, List.pairwise_cons]
        refine ⟨?_, ih h.2⟩
        intro a ha
        rcases amSet_keys_subset tl k a v ha with hh | hh
        · exact h.1 a hh
        · subst hh
          omega

theorem amSet_replace_decomp {α : Type} (m : List (Nat × α)) (k : Nat) (v old : α)
    (hpair : (m.map Prod.fst).Pairwise (· < ·)) (hget : amGet m k = some old) :
    ∃ l₁ l₂, m = l₁ ++ (k, old) :: l₂ ∧ amSet m k v = l₁ ++ (k, v) :: l₂ := by
  induction m with
  | nil => simp [amGet] at hget
  | cons hd tl ih =>
    obtain ⟨k', v'⟩ := hd
    simp only [List.map_cons, List.pairwise_cons] at hpair
    by_cases hk : k' = k
    · subst hk
      simp only [amGet] at hget
      simp at hget
      obtain rfl : v' = old := hget
      exact ⟨[], tl, by simp, by simp [amSet]⟩
    · simp only [amGet, if_neg hk] at hget
      have hmem := amGet_mem_keys tl k old hget
      have hkgt : k' < k := hpair.1 k hmem
      have hne : ¬ k = k' := fun hh => hk hh.symm
      have hnlt : ¬ k < k' := by omega
      obtain ⟨l₁, l₂, he₁, he₂⟩ := ih hpair.2 hget
      refine ⟨(k', v') :: l₁, l₂, by simp [he₁], ?_⟩
      simp only [amSet, if_neg hne, if_neg hnlt]
      simp [he₂]

theorem amSet_insert_decomp {α : Type} (m : List (Nat × α)) (k : Nat) (v : α)
    (hget : amGet m k = none) :
    ∃ l₁ l₂, m = l₁ ++ l₂ ∧ amSet m k v = l₁ ++ (k, v) :: l₂ := by
  induction m with
  | nil => exact ⟨[], [], by simp, by simp [amSet]⟩
  | cons hd tl ih =>
    obtain ⟨k', v'⟩ := hd
    by_cases hk : k' = k
    · simp [amGet, hk] at hget
    · simp only [amGet, if_neg hk] at hget
      have hne : ¬ k = k' := fun hh => hk hh.symm
      by_cases hlt : k < k'
      · exact ⟨[], (k', v') :: tl, by simp, by simp [amSet, hne, hlt]⟩
      · obtain ⟨l₁, l₂, he₁, he₂⟩ := ih hget
        refine ⟨(k', v') :: l₁, l₂, by simp [he₁], ?_⟩
        simp only [amSet, if_neg hne, if_neg hlt]
        simp [he₂]

theorem ledoValidCount_append (p : Nat) (c l : List OiEntry) :
    ledoValidCount p (c ++ l) = ledoValidCount p c + ledoValidCount p l := by
  simp [ledoValidCount, List.filter_append]

theorem ledoValidCount_single (p : Nat) (e : OiEntry) :
    ledoValidCount p [e] = if e.pid == p && ledoValid e.status then 1 else 0 := by
  by_cases h : (e.pid == p && ledoValid e.status) = true <;>
    simp [ledoValidCount, List.filter, h]

theorem LedoEntryOk_mono (c l : List OiEntry) (p : Nat) (d : LedoDetail)
    (h : LedoEntryOk c p d) : LedoEntryOk (c ++ l) p d := by
  obtain ⟨k, hk, e, hget, hrest⟩ := h
  have hk' : k < (c ++ l).length := by simp; omega
  refine ⟨k, hk', e, ?_, ?_⟩
  · rw [List.get_eq_getElem] at hget ⊢
    rw [List.getElem_append_left hk]
    exact hget
  · rw [List.take_append_of_le_length (Nat.le_of_lt hk)]
    exact hrest

theorem ledoStep_inv (c : List OiEntry) (st : List (Nat × Nat) × List (Nat × LedoDetail))
    (e : OiEntry) (h : LedoInv c st) : LedoInv (c ++ [e]) (ledoStep st e) := by
  obtain ⟨ntr, det⟩ := st
  intro p
  have hcnt : ∀ q, cGet ntr q = ledoValidCount q c := fun q => (h q).1
  have hdet : ∀ q d, amGet det q = some d → LedoEntryOk c q d := fun q => (h q).2
  have hntry : (ledoStep (ntr, det) e).1
      = (if ledoValid e.status then cInc ntr e.pid else ntr) := rfl
  have hdetail : (ledoStep (ntr, det) e).2
      = ledoDetailUpd det (cGet (if ledoValid e.status then cInc ntr e.pid else ntr) e.pid) e := rfl
  constructor
  · -- the retry counter counts the valid attempts consumed
    rw [hntry, ledoValidCount_append, ledoValidCount_single]
    by_cases hv : ledoValid e.status = true
    · by_cases hp : p = e.pid
      · subst hp
        simp [hv, cGet_cInc_self, hcnt e.pid]
      · have : (e.pid == p) = false := by
          simp only [beq_eq_false_iff_ne, ne_eq]
          omega
        simp [hv, this, cGet_cInc_ne ntr e.pid p (by omega), hcnt p]
    · simp only [Bool.not_eq_true] at hv
      simp [hv, hcnt p]
  · -- every detail entry satisfies the penalty formula
    intro d hd
    rw [hdetail] at hd
    unfold ledoDetailUpd at hd
    by_cases hkeep : (match amGet det e.pid with
        | none => true
        | some d₀ => decide (d₀.penaltyScore
            < ledoPenaltyScore (ledoValid e.status)
                (cGet (if ledoValid e.status then cInc ntr e.pid else ntr) e.pid) e.score)) = true
    · rw [if_pos hkeep] at hd
      by_cases hp : p = e.pid
      · subst hp
        rw [amGet_amSet_self] at hd
        obtain rfl := (Option.some.injEq _ _).mp hd
        have hkl : c.length < (c ++ [e]).length := by simp
        refine ⟨c.length, hkl, e, ?_, rfl, rfl, rfl, rfl, rfl, ?_⟩
        · rw [List.get_eq_getElem]
          exact List.getElem_concat_length c e c.length rfl hkl
        · rw [List.take_append_of_le_length (le_refl c.length), List.take_length]
          by_cases hv : ledoValid e.status = true
          · left
            have hn : cGet (if ledoValid e.status then cInc ntr e.pid else ntr) e.pid
                = ledoValidCount e.pid c + 1 := by
              simp [hv, cGet_cInc_self, hcnt e.pid]
            refine ⟨hv, ?_, ?_⟩
            · simp only [hn]
              push_cast
              ring
            · simp only [ledoPenaltyScore, hv, if_true, ledoCoef]
              rw [cGet_cInc_self, hcnt e.pid]
              simp
          · simp only [Bool.not_eq_true] at hv
            right
            have hn : cGet (if ledoValid e.status then cInc ntr e.pid else ntr) e.pid
                = ledoValidCount e.pid c := by
              simp [hv, hcnt e.pid]
            refine ⟨hv, ?_, ?_⟩
            · simp [ledoPenaltyScore, hv]
            · simp only [hn]
      · rw [amGet_amSet_ne _ _ _ _ (by omega)] at hd
        exact LedoEntryOk_mono c [e] p d (hdet p d hd)
    · rw [if_neg hkeep] at hd
      exact LedoEntryOk_mono c [e] p d (hdet p d hd)

theorem ledoFold_inv (l : List OiEntry) :
    ∀ (c : List OiEntry) (st : List (Nat × Nat) × List (Nat × LedoDetail)),
      LedoInv c st → LedoInv (c ++ l) (l.foldl ledoStep st) := by
  induction l with
  | nil => intro c st h; simpa using h
  | cons e rest ih =>
    intro c st h
    have h₁ := ledoStep_inv c st e h
    have h₂ := ih (c ++ [e]) (ledoStep st e) h₁
    simpa using h₂

/-- C6 — Ledo retry decay: every authoritative `detail` entry produced by
`ledo.stat` comes from a journal entry `e` of its problem; if `e` is valid
(not compile/format-error) and `v` valid attempts on that problem precede it
in the pids-filtered journal (so `e` is the `(v+1)`-th valid attempt), the
recorded penalized score is `round(max(0.7, 0.95^v) * e.score)` and the
stored retry count is `v`; an invalid entry records penalized score `0`.
In particular the 1st valid attempt gets coefficient `max(0.7, 0.95^0) = 1`,
the 4th `max(0.7, 0.95^3)`, and the 10th `max(0.7, 0.95^9) = 0.7`. -/
theorem ledo_decay_formula (t : Tdoc) (journal : List OiEntry) (p : Nat)
    (d : LedoDetail)
    (h : amGet (ledoStat t journal).detail p = some d) :
    LedoEntryOk (journal.filter (fun j => t.pids.contains j.pid)) p d := by
  have hinv : LedoInv [] (([], []) : List (Nat × Nat) × List (Nat × LedoDetail)) := by
    intro q
    constructor
    · simp [cGet, amGet, ledoValidCount]
    · intro d₀ hd₀
      simp [amGet] at hd₀
  have hfold := ledoFold_inv (journal.filter (fun j => t.pids.contains j.pid)) [] _ hinv
  simp only [List.nil_append] at hfold
  exact (hfold p).2 d h

/-- C6 witness: on a concrete journal (three valid zero-score attempts, then
a fourth valid attempt scoring 100), the recorded entry is the 4th valid
attempt with penalized score `round(max(0.7, 0.95^3) * 100) = 86`. -/
theorem ledo_decay_formula_witness :
    LedoEntryOk
      ([⟨1000, 1, 0, STATUS_WRONG_ANSWER⟩, ⟨2000, 1, 0, STATUS_WRONG_ANSWER⟩,
        ⟨3000, 1, 0, STATUS_WRONG_ANSWER⟩, ⟨4000, 1, 100, STATUS_ACCEPTED⟩].filter
          (fun j => Tdoc.pids ⟨0, 1000000, none, false, [1], none, 0, []⟩ |>.contains j.pid))
      1 ⟨4000, 1, 100, STATUS_ACCEPTED, 86, 3⟩ :=
  ledo_decay_formula ⟨0, 1000000, none, false, [1], none, 0, []⟩
    [⟨1000, 1, 0, STATUS_WRONG_ANSWER⟩, ⟨2000, 1, 0, STATUS_WRONG_ANSWER⟩,
     ⟨3000, 1, 0, STATUS_WRONG_ANSWER⟩, ⟨4000, 1, 100, STATUS_ACCEPTED⟩]
    1 ⟨4000, 1, 100, STATUS_ACCEPTED, 86, 3⟩ (by
      norm_num [ledoStat, ledoStep, ledoDetailUpd, ledoPenaltyScore, ledoValid, ledoCoef,
        jsRound, cGet, cInc, amGet, amSet, List.foldl, List.filter,
        STATUS_WRONG_ANSWER, STATUS_ACCEPTED, STATUS_COMPILE_ERROR, STATUS_FORMAT_ERROR])

theorem amSet_amSet_same {α : Type} (m : List (Nat × α)) (k : Nat) (v₁ v₂ : α) :
    amSet (amSet m k v₁) k v₂ = amSet m k v₂ := by
  induction m with
  | nil => simp [amSet]
  | cons hd tl ih =>
    obtain ⟨k', v'⟩ := hd
    by_cases hk : k = k'
    · simp [amSet, hk]
    · by_cases hlt : k < k'
      · simp [amSet, hk, hlt]
      · simp [amSet, hk, hlt, ih]

theorem acmSlotAccepted_core (e₁ e₂ : AcmDisplay) (h : e₁.core = e₂.core) :
    acmSlotAccepted e₁ = acmSlotAccepted e₂ := by
  unfold acmSlotAccepted
  rw [h]

theorem acmSlotTime_core (e₁ e₂ : AcmDisplay) (h : e₁.core = e₂.core) :
    acmSlotTime e₁ = acmSlotTime e₂ := by
  unfold acmSlotTime
  rw [h]

theorem oiSlotScore_core (e₁ e₂ : OiDisplay) (h : e₁.core = e₂.core) :
    oiSlotScore e₁ = oiSlotScore e₂ := by
  unfold oiSlotScore
  rw [h]

theorem sorted_split {α : Type} (key : α → Int) (l : Int) :
    ∀ c : List α, c.Pairwise (fun a b => key a ≤ key b) →
      ∃ rest, c = c.filter (fun e => decide (key e ≤ l)) ++ rest
        ∧ ∀ e ∈ rest, l < key e := by
  intro c
  induction c with
  | nil =>
    intro _
    exact ⟨[], by simp, by simp⟩
  | cons a tl ih =>
    intro hp
    rw [List.pairwise_cons] at hp
    by_cases ha : key a ≤ l
    · obtain ⟨rest, hre, hgt⟩ := ih hp.2
      refine ⟨rest, ?_, hgt⟩
      rw [List.filter_cons, if_pos (by simpa using ha)]
      rw [List.cons_append]
      exact congrArg (a :: ·) hre
    · refine ⟨a :: tl, ?_, ?_⟩
      · have hfil : (a :: tl).filter (fun e => decide (key e ≤ l)) = [] := by
          rw [List.filter_eq_nil_iff]
          intro x hx
          rcases List.mem_cons.mp hx with rfl | hx
          · simpa using ha
          · have := hp.1 x hx
            simp
            omega
        rw [hfil, List.nil_append]
      · intro x hx
        rcases List.mem_cons.mp hx with rfl | hx
        · omega
        · have := hp.1 x hx
          omega

theorem acmPenalizedCount_append (p : Nat) (c l : List AcmJournal) :
    acmPenalizedCount p (c ++ l) = acmPenalizedCount p c + acmPenalizedCount p l := by
  simp [acmPenalizedCount, List.filter_append]

theorem acmPenalizedCount_single (p : Nat) (e : AcmJournal) :
    acmPenalizedCount p [e] = if e.pid == p && acmPenalized e.status then 1 else 0 := by
  by_cases h : (e.pid == p && acmPenalized e.status) = true <;>
    simp [acmPenalizedCount, List.filter, h]

theorem AcmEntryOk_mono (b : Int) (c l : List AcmJournal) (p : Nat) (d : AcmDetail)
    (h : AcmEntryOk b c p d) : AcmEntryOk b (c ++ l) p d := by
  obtain ⟨k, hk, e, hget, hrest⟩ := h
  have hk' : k < (c ++ l).length := by simp; omega
  refine ⟨k, hk', e, ?_, ?_⟩
  · rw [List.get_eq_getElem] at hget ⊢
    rw [List.getElem_append_left hk]
    exact hget
  · rw [List.take_append_of_le_length (Nat.le_of_lt hk)]
    exact hrest

theorem acmStep_inv (b : Int) (lockAt : Option Int) (c : List AcmJournal)
    (st : AcmState) (e : AcmJournal) (h : AcmInv b c st) :
    AcmInv b (c ++ [e]) (acmStep false lockAt b st e) := by
  by_cases hs : acmDisplayAccepted st.display e.pid = true
  · -- the entry is skipped: the state is unchanged
    have hstep : acmStep false lockAt b st e = st := by
      unfold acmStep
      simp [hs]
    rw [hstep]
    intro p
    refine ⟨?_, ?_⟩
    · intro hdisp
      by_cases hp : p = e.pid
      · subst hp
        rw [hs] at hdisp
        cases hdisp
      · rw [acmPenalizedCount_append, acmPenalizedCount_single]
        have hne : (e.pid == p) = false := by
          simp only [beq_eq_false_iff_ne, ne_eq]
          omega
        simp [hne]
        exact (h p).1 hdisp
    · intro d hd
      exact AcmEntryOk_mono b c [e] p d ((h p).2 d hd)
  · -- the entry is processed
    simp only [Bool.not_eq_true] at hs
    have hnacc : (acmStep false lockAt b st e).naccept
        = if acmPenalized e.status then cInc st.naccept e.pid else st.naccept := by
      unfold acmStep
      rcases lockAt with _ | l
      · by_cases hpen : acmPenalized e.status = true <;> simp [hs, hpen]
      · by_cases hr : e.rid > l <;> by_cases hpen : acmPenalized e.status = true <;>
          simp [hs, hr, hpen]
    have hdet : (acmStep false lockAt b st e).detail
        = amSet st.detail e.pid (acmMkDetail b st.naccept e) := by
      unfold acmStep
      rcases lockAt with _ | l
      · by_cases hpen : acmPenalized e.status = true <;> simp [hs, hpen]
      · by_cases hr : e.rid > l <;> by_cases hpen : acmPenalized e.status = true <;>
          simp [hs, hr, hpen]
    have hdisp_ne : ∀ q, q ≠ e.pid →
        amGet (acmStep false lockAt b st e).display q = amGet st.display q := by
      intro q hq
      unfold acmStep
      rcases lockAt with _ | l
      · by_cases hpen : acmPenalized e.status = true <;>
          simp [hs, hpen, amGet_amSet_ne _ _ _ _ hq]
      · by_cases hr : e.rid > l <;> by_cases hpen : acmPenalized e.status = true <;>
          simp [hs, hr, hpen, amGet_amSet_ne _ _ _ _ hq]
    intro p
    constructor
    · intro hdisp
      rw [hnacc, acmPenalizedCount_append, acmPenalizedCount_single]
      by_cases hp : p = e.pid
      · subst hp
        have hbase := (h e.pid).1 hs
        by_cases hpen : acmPenalized e.status = true
        · simp [hpen, cGet_cInc_self, hbase]
        · simp only [Bool.not_eq_true] at hpen
          simp [hpen, hbase]
      · have hne : (e.pid == p) = false := by
          simp only [beq_eq_false_iff_ne, ne_eq]
          omega
        have hq : acmDisplayAccepted st.display p = false := by
          have heq : acmDisplayAccepted (acmStep false lockAt b st e).display p
              = acmDisplayAccepted st.display p := by
            unfold acmDisplayAccepted
            rw [hdisp_ne p hp]
          rw [heq] at hdisp
          exact hdisp
        have hbase := (h p).1 hq
        by_cases hpen : acmPenalized e.status = true
        · simp [hpen, hne, cGet_cInc_ne st.naccept e.pid p (by omega), hbase]
        · simp only [Bool.not_eq_true] at hpen
          simp [hpen, hne, hbase]
    · intro d hd
      rw [hdet] at hd
      by_cases hp : p = e.pid
      · subst hp
        rw [amGet_amSet_self] at hd
        obtain rfl := (Option.some.injEq _ _).mp hd
        have hkl : c.length < (c ++ [e]).length := by simp
        have hcnt := (h e.pid).1 hs
        refine ⟨c.length, hkl, e, ?_, rfl, rfl, rfl, rfl, rfl, ?_, rfl, ?_, rfl⟩
        · rw [List.get_eq_getElem]
          exact List.getElem_concat_length c e c.length rfl hkl
        · rw [List.take_append_of_le_length (le_refl c.length), List.take_length]
          exact hcnt
        · rw [List.take_append_of_le_length (le_refl c.length), List.take_length]
          rw [show (acmMkDetail b st.naccept e).penalty
              = 20 * 60 * (cGet st.naccept e.pid : Int) from rfl, hcnt]
      · rw [amGet_amSet_ne _ _ _ _ (by omega)] at hd
        exact AcmEntryOk_mono b c [e] p d ((h p).2 d hd)

theorem acmFold_inv (b : Int) (lockAt : Option Int) (l : List AcmJournal) :
    ∀ (c : List AcmJournal) (st : AcmState),
      AcmInv b c st → AcmInv b (c ++ l) (l.foldl (acmStep false lockAt b) st) := by
  induction l with
  | nil => intro c st h; simpa using h
  | cons e rest ih =>
    intro c st h
    have h₁ := acmStep_inv b lockAt c st e h
    have h₂ := ih (c ++ [e]) (acmStep false lockAt b st e) h₁
    simpa using h₂

/-- C5 — ACM penalty accounting: every authoritative `detail` entry produced
by `acm.stat` comes from a journal entry `e` of its problem; its raw elapsed
time is `floor((e.rid - beginAt) / 1000)` seconds, its penalty is
`20 * 60` seconds per prior attempt on that problem whose status is neither
accepted, compile-error nor format-error, and its recorded time is exactly
`real + penalty` — so a problem solved on the 3rd valid attempt at raw
elapsed time `t` records time `t + 2 * 1200`. -/
theorem acm_penalty_formula (t : Tdoc) (now : Int) (journal : List AcmJournal)
    (p : Nat) (d : AcmDetail)
    (h : amGet (acmStat false t now journal).detail p = some d) :
    AcmEntryOk t.beginAt journal p d := by
  have hinv : AcmInv t.beginAt [] (⟨[], [], [], []⟩ : AcmState) := by
    intro q
    constructor
    · intro _
      simp [cGet, amGet, acmPenalizedCount]
    · intro d₀ hd₀
      simp [amGet] at hd₀
  have hfold := acmFold_inv t.beginAt
    (if isLocked t now then t.lockAt else none) journal [] _ hinv
  simp only [List.nil_append] at hfold
  exact (hfold p).2 d h

/-- C5 witness: two wrong answers at 5s and 60s, then an accepted run at 90s;
the recorded entry has real time 90, two prior penalized attempts, penalty
2400 and recorded time 90 + 2 * 1200 = 2490. -/
theorem acm_penalty_formula_witness :
    AcmEntryOk 0
      [⟨5000, 1, 0, STATUS_WRONG_ANSWER, 0⟩, ⟨60000, 1, 0, STATUS_WRONG_ANSWER, 0⟩,
       ⟨90000, 1, 100, STATUS_ACCEPTED, 0⟩]
      1 ⟨90000, 1, 100, STATUS_ACCEPTED, 2, 2490, 90, 2400⟩ :=
  acm_penalty_formula ⟨0, 1000000, none, false, [1], none, 0, []⟩ 0
    [⟨5000, 1, 0, STATUS_WRONG_ANSWER, 0⟩, ⟨60000, 1, 0, STATUS_WRONG_ANSWER, 0⟩,
     ⟨90000, 1, 100, STATUS_ACCEPTED, 0⟩]
    1 ⟨90000, 1, 100, STATUS_ACCEPTED, 2, 2490, 90, 2400⟩ (by decide)

theorem acmPostStep (b l : Int) (st : AcmState) (e : AcmJournal)
    (hr : l < e.rid)
    (hpair : (st.display.map Prod.fst).Pairwise (· < ·)) :
    (∀ p, dispCoreA (acmStep false (some l) b st e).display p = dispCoreA st.display p)
    ∧ (acmAcceptedSlots (acmStep false (some l) b st e).display).length
        = (acmAcceptedSlots st.display).length
    ∧ ((acmAcceptedSlots (acmStep false (some l) b st e).display).map acmSlotTime).sum
        = ((acmAcceptedSlots st.display).map acmSlotTime).sum
    ∧ (((acmStep false (some l) b st e).display.map Prod.fst).Pairwise (· < ·)) := by
  by_cases hs : acmDisplayAccepted st.display e.pid = true
  · have hstep : acmStep false (some l) b st e = st := by
      unfold acmStep
      simp [hs]
    rw [hstep]
    exact ⟨fun _ => rfl, rfl, rfl, hpair⟩
  · simp only [Bool.not_eq_true] at hs
    have hdisp : (acmStep false (some l) b st e).display
        = amSet st.display e.pid
            ⟨dispCoreA st.display e.pid, some (cGet (cInc st.npending e.pid) e.pid)⟩ := by
      unfold acmStep dispCoreA
      by_cases hpen : acmPenalized e.status = true <;> simp [hs, hpen, hr]
    have hpoint : ∀ p,
        dispCoreA (acmStep false (some l) b st e).display p = dispCoreA st.display p := by
      intro p
      rw [hdisp]
      by_cases hp : p = e.pid
      · subst hp
        unfold dispCoreA
        rw [amGet_amSet_self]
      · unfold dispCoreA
        rw [amGet_amSet_ne _ _ _ _ hp]
    have hkeys : (((acmStep false (some l) b st e).display.map Prod.fst).Pairwise (· < ·)) := by
      rw [hdisp]
      exact amSet_keys_pairwise _ _ _ hpair
    refine ⟨hpoint, ?_, ?_, hkeys⟩ <;>
    · rcases hold : amGet st.display e.pid with _ | old
      · have hcore : dispCoreA st.display e.pid = none := by
          unfold dispCoreA
          rw [hold]
        obtain ⟨l₁, l₂, hm, hm2⟩ := amSet_insert_decomp st.display e.pid
          ⟨dispCoreA st.display e.pid, some (cGet (cInc st.npending e.pid) e.pid)⟩ hold
        rw [hdisp, hm2]
        conv_rhs => rw [hm]
        unfold acmAcceptedSlots
        simp [List.filter_append, hcore, acmSlotAccepted]
      · have hcore : dispCoreA st.display e.pid = old.core := by
          unfold dispCoreA
          rw [hold]
        obtain ⟨l₁, l₂, hm, hm2⟩ := amSet_replace_decomp st.display e.pid
          ⟨dispCoreA st.display e.pid, some (cGet (cInc st.npending e.pid) e.pid)⟩ old hpair hold
        rw [hdisp, hm2]
        conv_rhs => rw [hm]
        unfold acmAcceptedSlots
        have haccEq : acmSlotAccepted
            ⟨dispCoreA st.display e.pid, some (cGet (cInc st.npending e.pid) e.pid)⟩
            = acmSlotAccepted old := acmSlotAccepted_core _ _ (by rw [hcore])
        have htimeEq : acmSlotTime
            ⟨dispCoreA st.display e.pid, some (cGet (cInc st.npending e.pid) e.pid)⟩
            = acmSlotTime old := acmSlotTime_core _ _ (by rw [hcore])
        by_cases hacc : acmSlotAccepted old = true <;>
          simp [List.filter_append, List.filter_cons, haccEq, htimeEq, hacc]

theorem acmPostFold (b l : Int) (rest : List AcmJournal) :
    ∀ st : AcmState, (∀ e ∈ rest, l < e.rid) →
      ((st.display.map Prod.fst).Pairwise (· < ·)) →
      (∀ p, dispCoreA (rest.foldl (acmStep false (some l) b) st).display p
          = dispCoreA st.display p)
      ∧ (acmAcceptedSlots (rest.foldl (acmStep false (some l) b) st).display).length
          = (acmAcceptedSlots st.display).length
      ∧ ((acmAcceptedSlots (rest.foldl (acmStep false (some l) b) st).display).map
            acmSlotTime).sum
          = ((acmAcceptedSlots st.display).map acmSlotTime).sum := by
  induction rest with
  | nil =>
    intro st _ _
    exact ⟨fun _ => rfl, rfl, rfl⟩
  | cons e rs ih =>
    intro st hmem hpair
    have hstep := acmPostStep b l st e (hmem e (by simp)) hpair
    have hrec := ih (acmStep false (some l) b st e)
      (fun x hx => hmem x (by simp [hx])) hstep.2.2.2
    simp only [List.foldl_cons]
    exact ⟨fun p => (hrec.1 p).trans (hstep.1 p),
      hrec.2.1.trans hstep.2.1, hrec.2.2.trans hstep.2.2.1⟩

theorem acmStep_display_keys (saa : Bool) (lockAt : Option Int) (b : Int)
    (st : AcmState) (e : AcmJournal)
    (h : (st.display.map Prod.fst).Pairwise (· < ·)) :
    (((acmStep saa lockAt b st e).display.map Prod.fst).Pairwise (· < ·)) := by
  unfold acmStep
  by_cases hs : (!saa && acmDisplayAccepted st.display e.pid) = true
  · simpa [hs] using h
  · rcases lockAt with _ | l <;>
      by_cases hpen : acmPenalized e.status = true
    all_goals
      first
      | (simp only [hs, Bool.false_eq_true, if_false, hpen, if_true]
         exact amSet_keys_pairwise _ _ _ h)
      | (simp [hs, hpen]
         split <;> exact amSet_keys_pairwise _ _ _ h)

theorem acmFold_display_keys (saa : Bool) (lockAt : Option Int) (b : Int)
    (rest : List AcmJournal) :
    ∀ st : AcmState, ((st.display.map Prod.fst).Pairwise (· < ·)) →
      (((rest.foldl (acmStep saa lockAt b) st).display.map Prod.fst).Pairwise (· < ·)) := by
  induction rest with
  | nil => intro st h; simpa using h
  | cons e rs ih =>
    intro st h
    simp only [List.foldl_cons]
    exact ih _ (acmStep_display_keys saa lockAt b st e h)

theorem oiPostStep (saa : Bool) (l : Int) (st : OiState) (e : OiEntry)
    (hr : l < e.rid)
    (hpair : (st.display.map Prod.fst).Pairwise (· < ·)) :
    (∀ p, dispCoreO (oiStep saa (some l) st e).display p = dispCoreO st.display p)
    ∧ oiDisplaySum (oiStep saa (some l) st e).display = oiDisplaySum st.display
    ∧ (((oiStep saa (some l) st e).display.map Prod.fst).Pairwise (· < ·)) := by
  by_cases htake : (match amGet st.detail e.pid with
      | none => true
      | some d => decide (d.score < e.score) || saa) = true
  · have hdisp : (oiStep saa (some l) st e).display
        = amSet st.display e.pid
            ⟨dispCoreO st.display e.pid, some (cGet (cInc st.npending e.pid) e.pid)⟩ := by
      unfold oiStep dispCoreO
      rcases hold : amGet st.display e.pid with _ | old
      · simp [htake, hold, hr, amGet_amSet_self, amSet_amSet_same]
      · simp [htake, hold, hr]
    have hpoint : ∀ p,
        dispCoreO (oiStep saa (some l) st e).display p = dispCoreO st.display p := by
      intro p
      rw [hdisp]
      by_cases hp : p = e.pid
      · subst hp
        unfold dispCoreO
        rw [amGet_amSet_self]
      · unfold dispCoreO
        rw [amGet_amSet_ne _ _ _ _ hp]
    have hkeys : (((oiStep saa (some l) st e).display.map Prod.fst).Pairwise (· < ·)) := by
      rw [hdisp]
      exact amSet_keys_pairwise _ _ _ hpair
    refine ⟨hpoint, ?_, hkeys⟩
    rcases hold : amGet st.display e.pid with _ | old
    · have hcore : dispCoreO st.display e.pid = none := by
        unfold dispCoreO
        rw [hold]
      obtain ⟨l₁, l₂, hm, hm2⟩ := amSet_insert_decomp st.display e.pid
        ⟨dispCoreO st.display e.pid, some (cGet (cInc st.npending e.pid) e.pid)⟩ hold
      rw [hdisp, hm2]
      conv_rhs => rw [hm]
      unfold oiDisplaySum
      simp [hcore, oiSlotScore]
    · have hcore : dispCoreO st.display e.pid = old.core := by
        unfold dispCoreO
        rw [hold]
      obtain ⟨l₁, l₂, hm, hm2⟩ := amSet_replace_decomp st.display e.pid
        ⟨dispCoreO st.display e.pid, some (cGet (cInc st.npending e.pid) e.pid)⟩ old hpair hold
      rw [hdisp, hm2]
      conv_rhs => rw [hm]
      unfold oiDisplaySum
      have hscoreEq : oiSlotScore
          ⟨dispCoreO st.display e.pid, some (cGet (cInc st.npending e.pid) e.pid)⟩
          = oiSlotScore old := oiSlotScore_core _ _ (by rw [hcore])
      simp [hscoreEq]
  · have hstep : oiStep saa (some l) st e = st := by
      unfold oiStep
      simp [htake]
    rw [hstep]
    exact ⟨fun _ => rfl, rfl, hpair⟩

theorem oiPostFold (saa : Bool) (l : Int) (rest : List OiEntry) :
    ∀ st : OiState, (∀ e ∈ rest, l < e.rid) →
      ((st.display.map Prod.fst).Pairwise (· < ·)) →
      (∀ p, dispCoreO (rest.foldl (oiStep saa (some l)) st).display p
          = dispCoreO st.display p)
      ∧ oiDisplaySum (rest.foldl (oiStep saa (some l)) st).display
          = oiDisplaySum st.display := by
  induction rest with
  | nil =>
    intro st _ _
    exact ⟨fun _ => rfl, rfl⟩
  | cons e rs ih =>
    intro st hmem hpair
    have hstep := oiPostStep saa l st e (hmem e (by simp)) hpair
    have hrec := ih (oiStep saa (some l) st e)
      (fun x hx => hmem x (by simp [hx])) hstep.2.2
    simp only [List.foldl_cons]
    exact ⟨fun p => (hrec.1 p).trans (hstep.1 p), hrec.2.trans hstep.2.1⟩

theorem oiStep_display_keys (saa : Bool) (lockAt : Option Int)
    (st : OiState) (e : OiEntry)
    (h : (st.display.map Prod.fst).Pairwise (· < ·)) :
    (((oiStep saa lockAt st e).display.map Prod.fst).Pairwise (· < ·)) := by
  unfold oiStep
  by_cases htake : (match amGet st.detail e.pid with
      | none => true
      | some d => decide (d.score < e.score) || saa) = true
  · rcases hold : amGet st.display e.pid with _ | old <;>
      rcases lockAt with _ | l
    · simp only [htake, if_true, hold]
      exact amSet_keys_pairwise _ _ _ (amSet_keys_pairwise _ _ _ h)
    · simp only [htake, if_true, hold]
      by_cases hrl : e.rid > l
      · simp only [hrl, if_true]
        exact amSet_keys_pairwise _ _ _ (amSet_keys_pairwise _ _ _ h)
      · simp only [hrl, if_false]
        exact amSet_keys_pairwise _ _ _ (amSet_keys_pairwise _ _ _ h)
    · simp only [htake, if_true, hold]
      exact amSet_keys_pairwise _ _ _ h
    · simp only [htake, if_true, hold]
      by_cases hrl : e.rid > l
      · simp only [hrl, if_true]
        exact amSet_keys_pairwise _ _ _ h
      · simp only [hrl, if_false]
        exact amSet_keys_pairwise _ _ _ h
  · simpa [htake] using h

theorem oiFold_display_keys (saa : Bool) (lockAt : Option Int) (rest : List OiEntry) :
    ∀ st : OiState, ((st.display.map Prod.fst).Pairwise (· < ·)) →
      (((rest.foldl (oiStep saa lockAt) st).display.map Prod.fst).Pairwise (· < ·)) := by
  induction rest with
  | nil => intro st h; simpa using h
  | cons e rs ih =>
    intro st h
    simp only [List.foldl_cons]
    exact ih _ (oiStep_display_keys saa lockAt st e h)

/-- C1 — Freeze containment: when the contest is locked (`lockAt = some l`,
in the past, not cleared by `unlocked`) and the journal is ordered by
submission instant, the `display` view produced by `acm.stat` (and by the
shared `oi`/`ioi` stat) agrees — on every problem's authoritative core, hence
on every exposed submission instant, score and verdict, and on the
display-derived `accept`/`time`/`score` aggregates — with the display
computed on the journal truncated at `lockAt`; only the per-problem pending
counters (and the freeze-immune `detail`) may differ.  The remaining rules'
`stat` (`strictioi`, `ledo`, `homework`) return no `display` at all. -/
theorem freeze_containment (t : Tdoc) (now l : Int) (saa : Bool)
    (ja : List AcmJournal) (jo : List OiEntry)
    (hla : t.lockAt = some l) (hlock : isLocked t now = true)
    (hsa : ja.Pairwise (fun a b => a.rid ≤ b.rid))
    (hso : jo.Pairwise (fun a b => a.rid ≤ b.rid)) :
    (∀ p, dispCoreA (acmStat false t now ja).display p
        = dispCoreA (acmStat false t now (ja.filter (fun e => decide (e.rid ≤ l)))).display p)
    ∧ (acmStat false t now ja).accept
        = (acmStat false t now (ja.filter (fun e => decide (e.rid ≤ l)))).accept
    ∧ (acmStat false t now ja).time
        = (acmStat false t now (ja.filter (fun e => decide (e.rid ≤ l)))).time
    ∧ (∀ p, dispCoreO (oiStat saa t now jo).display p
        = dispCoreO (oiStat saa t now (jo.filter (fun e => decide (e.rid ≤ l)))).display p)
    ∧ (oiStat saa t now jo).score
        = (oiStat saa t now (jo.filter (fun e => decide (e.rid ≤ l)))).score := by
  have hlockAt : (if isLocked t now then t.lockAt else none) = some l := by
    rw [hlock]
    simpa using hla
  -- ACM side
  obtain ⟨rest, hsplit, hgt⟩ := sorted_split (fun e : AcmJournal => e.rid) l ja hsa
  have hsplit2 : ja = ja.filter (fun e => decide (e.rid ≤ l)) ++ rest := hsplit
  have hgt2 : ∀ e ∈ rest, l < e.rid := hgt
  have hacmStat : ∀ jj : List AcmJournal, acmStat false t now jj
      = { accept := (acmAcceptedSlots
            ((jj.foldl (acmStep false (some l) t.beginAt) ⟨[], [], [], []⟩).display)).length,
          time := ((acmAcceptedSlots
            ((jj.foldl (acmStep false (some l) t.beginAt) ⟨[], [], [], []⟩).display)).map
              acmSlotTime).sum,
          detail := (jj.foldl (acmStep false (some l) t.beginAt) ⟨[], [], [], []⟩).detail,
          display := (jj.foldl (acmStep false (some l) t.beginAt) ⟨[], [], [], []⟩).display } := by
    intro jj
    unfold acmStat
    rw [hlockAt]
  have hfoldA : ja.foldl (acmStep false (some l) t.beginAt) ⟨[], [], [], []⟩
      = rest.foldl (acmStep false (some l) t.beginAt)
          ((ja.filter (fun e => decide (e.rid ≤ l))).foldl
            (acmStep false (some l) t.beginAt) ⟨[], [], [], []⟩) := by
    conv_lhs => rw [hsplit2]
    rw [List.foldl_append]
  have hkeysA : ((((ja.filter (fun e => decide (e.rid ≤ l))).foldl
      (acmStep false (some l) t.beginAt) ⟨[], [], [], []⟩).display.map Prod.fst).Pairwise
        (· < ·)) :=
    acmFold_display_keys false (some l) t.beginAt _ ⟨[], [], [], []⟩ (by simp)
  have hpostA := acmPostFold t.beginAt l rest
    ((ja.filter (fun e => decide (e.rid ≤ l))).foldl
      (acmStep false (some l) t.beginAt) ⟨[], [], [], []⟩) hgt2 hkeysA
  -- OI side
  have hsof : (jo.filter (fun j => t.pids.contains j.pid)).Pairwise
      (fun a b => a.rid ≤ b.rid) := hso.filter _
  obtain ⟨ro, hsplito, hgto⟩ :=
    sorted_split (fun e : OiEntry => e.rid) l (jo.filter (fun j => t.pids.contains j.pid)) hsof
  have hsplito2 : jo.filter (fun j => t.pids.contains j.pid)
      = (jo.filter (fun j => t.pids.contains j.pid)).filter
          (fun e => decide (e.rid ≤ l)) ++ ro := hsplito
  have hgto2 : ∀ e ∈ ro, l < e.rid := hgto
  have hcomm : (jo.filter (fun e => decide (e.rid ≤ l))).filter
        (fun j => t.pids.contains j.pid)
      = (jo.filter (fun j => t.pids.contains j.pid)).filter
          (fun e => decide (e.rid ≤ l)) := by
    rw [List.filter_filter, List.filter_filter]
    congr 1
    funext a
    exact Bool.and_comm _ _
  have hoiStat : ∀ jj : List OiEntry, oiStat saa t now jj
      = { score := oiDisplaySum (((jj.filter (fun j => t.pids.contains j.pid)).foldl
            (oiStep saa (some l)) ⟨[], [], []⟩).display),
          detail := ((jj.filter (fun j => t.pids.contains j.pid)).foldl
            (oiStep saa (some l)) ⟨[], [], []⟩).detail,
          display := ((jj.filter (fun j => t.pids.contains j.pid)).foldl
            (oiStep saa (some l)) ⟨[], [], []⟩).display } := by
    intro jj
    unfold oiStat
    rw [hlockAt]
  have hfoldO : (jo.filter (fun j => t.pids.contains j.pid)).foldl
        (oiStep saa (some l)) ⟨[], [], []⟩
      = ro.foldl (oiStep saa (some l))
          (((jo.filter (fun e => decide (e.rid ≤ l))).filter
              (fun j => t.pids.contains j.pid)).foldl
            (oiStep saa (some l)) ⟨[], [], []⟩) := by
    conv_lhs => rw [hsplito2]
    rw [List.foldl_append, hcomm]
  have hkeysO : (((((jo.filter (fun e => decide (e.rid ≤ l))).filter
      (fun j => t.pids.contains j.pid)).foldl
        (oiStep saa (some l)) ⟨[], [], []⟩).display.map Prod.fst).Pairwise (· < ·)) :=
    oiFold_display_keys saa (some l) _ ⟨[], [], []⟩ (by simp)
  have hpostO := oiPostFold saa l ro
    (((jo.filter (fun e => decide (e.rid ≤ l))).filter
        (fun j => t.pids.contains j.pid)).foldl
      (oiStep saa (some l)) ⟨[], [], []⟩) hgto2
    (by rw [hcomm] at hkeysO ⊢; exact hkeysO)
  refine ⟨?_, ?_, ?_, ?_, ?_⟩
  · intro p
    rw [hacmStat ja, hacmStat (ja.filter (fun e => decide (e.rid ≤ l))), hfoldA]
    exact hpostA.1 p
  · rw [hacmStat ja, hacmStat (ja.filter (fun e => decide (e.rid ≤ l))), hfoldA]
    exact hpostA.2.1
  · rw [hacmStat ja, hacmStat (ja.filter (fun e => decide (e.rid ≤ l))), hfoldA]
    exact hpostA.2.2
  · intro p
    rw [hoiStat jo, hoiStat (jo.filter (fun e => decide (e.rid ≤ l))), hfoldO]
    exact hpostO.1 p
  · rw [hoiStat jo, hoiStat (jo.filter (fun e => decide (e.rid ≤ l))), hfoldO]
    exact hpostO.2

/-- C1 witness: a contest locked at 500000 evaluated at 600000, each journal
holding one pre-lock and one post-lock entry; the full-journal display core,
accept, time and score equal those of the journal truncated at `lockAt`. -/
theorem freeze_containment_witness :
    (dispCoreA (acmStat false ⟨0, 1000000, some 500000, false, [1], none, 0, []⟩ 600000
        [⟨100000, 1, 100, STATUS_ACCEPTED, 0⟩, ⟨550000, 1, 0, STATUS_WRONG_ANSWER, 0⟩]).display 1
      = dispCoreA (acmStat false ⟨0, 1000000, some 500000, false, [1], none, 0, []⟩ 600000
          ([⟨100000, 1, 100, STATUS_ACCEPTED, 0⟩, ⟨550000, 1, 0, STATUS_WRONG_ANSWER, 0⟩].filter
            (fun e => decide (e.rid ≤ 500000)))).display 1)
    ∧ (acmStat false ⟨0, 1000000, some 500000, false, [1], none, 0, []⟩ 600000
        [⟨100000, 1, 100, STATUS_ACCEPTED, 0⟩, ⟨550000, 1, 0, STATUS_WRONG_ANSWER, 0⟩]).accept
      = (acmStat false ⟨0, 1000000, some 500000, false, [1], none, 0, []⟩ 600000
          ([⟨100000, 1, 100, STATUS_ACCEPTED, 0⟩, ⟨550000, 1, 0, STATUS_WRONG_ANSWER, 0⟩].filter
            (fun e => decide (e.rid ≤ 500000)))).accept
    ∧ (acmStat false ⟨0, 1000000, some 500000, false, [1], none, 0, []⟩ 600000
        [⟨100000, 1, 100, STATUS_ACCEPTED, 0⟩, ⟨550000, 1, 0, STATUS_WRONG_ANSWER, 0⟩]).time
      = (acmStat false ⟨0, 1000000, some 500000, false, [1], none, 0, []⟩ 600000
          ([⟨100000, 1, 100, STATUS_ACCEPTED, 0⟩, ⟨550000, 1, 0, STATUS_WRONG_ANSWER, 0⟩].filter
            (fun e => decide (e.rid ≤ 500000)))).time
    ∧ (dispCoreO (oiStat true ⟨0, 1000000, some 500000, false, [1], none, 0, []⟩ 600000
        [⟨100000, 1, 50, STATUS_WRONG_ANSWER⟩, ⟨550000, 1, 80, STATUS_WRONG_ANSWER⟩]).display 1
      = dispCoreO (oiStat true ⟨0, 1000000, some 500000, false, [1], none, 0, []⟩ 600000
          ([⟨100000, 1, 50, STATUS_WRONG_ANSWER⟩, ⟨550000, 1, 80, STATUS_WRONG_ANSWER⟩].filter
            (fun e => decide (e.rid ≤ 500000)))).display 1)
    ∧ (oiStat true ⟨0, 1000000, some 500000, false, [1], none, 0, []⟩ 600000
        [⟨100000, 1, 50, STATUS_WRONG_ANSWER⟩, ⟨550000, 1, 80, STATUS_WRONG_ANSWER⟩]).score
      = (oiStat true ⟨0, 1000000, some 500000, false, [1], none, 0, []⟩ 600000
          ([⟨100000, 1, 50, STATUS_WRONG_ANSWER⟩, ⟨550000, 1, 80, STATUS_WRONG_ANSWER⟩].filter
            (fun e => decide (e.rid ≤ 500000)))).score :=
  have h := freeze_containment ⟨0, 1000000, some 500000, false, [1], none, 0, []⟩ 600000 500000
    true
    [⟨100000, 1, 100, STATUS_ACCEPTED, 0⟩, ⟨550000, 1, 0, STATUS_WRONG_ANSWER, 0⟩]
    [⟨100000, 1, 50, STATUS_WRONG_ANSWER⟩, ⟨550000, 1, 80, STATUS_WRONG_ANSWER⟩]
    rfl (by decide) (by decide) (by decide)
  ⟨h.1 1, h.2.1, h.2.2.1, h.2.2.2.1 1, h.2.2.2.2⟩

/-- C10 — Lifecycle exclusivity: for every contest configuration, optional
participant state, and single evaluation instant, `isOngoing` and `isDone`
are never both true. -/
theorem lifecycle_ongoing_done_exclusive (t : Tdoc) (ts : Option TsdocTime) (now : Int) :
    (isOngoing t ts now && isDone t ts now) = false := by
  unfold isOngoing isDone
  by_cases h : durationExhausted t ts now = true
  · simp [h]
  · simp only [Bool.not_eq_true] at h
    simp only [h, if_false, Bool.false_eq_true]
    by_cases he : t.endAt ≤ now
    · simp [he]
    · simp [he, h]

/-- C8 — Totality on degenerate input: for every rule and every contest
configuration, `stat` on the empty journal returns the zero-value aggregate:
zero score/time/accept counters and empty `detail`/`display` maps (for the
homework rule, the modelled `Math.sum` total-time reduction yields 0). -/
theorem stat_empty_journal (saa : Bool) (t : Tdoc) (now : Int) :
    acmStat saa t now [] = ⟨0, 0, [], []⟩
    ∧ oiStat saa t now [] = ⟨0, [], []⟩
    ∧ ledoStat t [] = ⟨0, 0, []⟩
    ∧ strictioiStat t [] = (⟨0, []⟩, [])
    ∧ hwStat t [] = ⟨0, 0, 0, []⟩ := by
  refine ⟨rfl, rfl, ?_, rfl, rfl⟩
  unfold ledoStat
  simp only [List.filter_nil, List.foldl_nil, LedoResult.mk.injEq]
  refine ⟨?_, ?_, trivial⟩ <;>
  · apply List.sum_eq_zero
    intro x hx
    simp only [List.mem_map] at hx
    obtain ⟨p, _, h⟩ := hx
    exact h.symm

/-- C2 — Foreign problem ids are NOT ignored by `acm.stat`: unlike every other
rule, its loop has no `tdoc.pids` filter, so an accepted entry whose pid is
outside `pids` is folded into `detail`, `display` and the `accept`/`time`
aggregates, which therefore differ from the aggregates of the restricted
journal.  (`oi.stat` does filter, as the last conjunct shows.) -/
theorem acm_stat_foreign_pid_not_ignored :
    (acmStat false ⟨0, 1000000, none, false, [1], none, 0, []⟩ 0
        [⟨1000, 2, 100, STATUS_ACCEPTED, 0⟩]).accept = 1
    ∧ (acmStat false ⟨0, 1000000, none, false, [1], none, 0, []⟩ 0
        ([⟨1000, 2, 100, STATUS_ACCEPTED, 0⟩].filter
          (fun e : AcmJournal => [1].contains e.pid))).accept = 0
    ∧ (oiStat true ⟨0, 1000000, none, false, [1], none, 0, []⟩ 0
        [⟨1000, 2, 100, STATUS_ACCEPTED⟩]).score = 0 := by
  decide

/-- C3 — `stat` is not idempotent for the strict-IOI rule: the first run
mutates the journal entries in place (cumulative `score`/`status`, `subtasks`
aliased to the rule-global accumulator), so a second run over the stored
journal — exactly what `recalcStatus` performs — yields a different aggregate
(60 instead of 40 on this two-problem journal). -/
theorem strictioi_stat_not_idempotent :
    (strictioiStat ⟨0, 1000000, none, false, [1, 2], none, 0, []⟩
        [⟨1000, 1, 0, ((0 : Int) : WithBot Int), [(1, ⟨10, 1⟩)]⟩,
         ⟨2000, 2, 0, ((0 : Int) : WithBot Int), [(2, ⟨20, 1⟩)]⟩]).1.score = 40
    ∧ (strictioiStat ⟨0, 1000000, none, false, [1, 2], none, 0, []⟩
        (strictioiStat ⟨0, 1000000, none, false, [1, 2], none, 0, []⟩
          [⟨1000, 1, 0, ((0 : Int) : WithBot Int), [(1, ⟨10, 1⟩)]⟩,
           ⟨2000, 2, 0, ((0 : Int) : WithBot Int), [(2, ⟨20, 1⟩)]⟩]).2).1.score = 60 := by
  constructor <;> rfl

/-- C4 — The ranking inside `acm.scoreboard` does NOT use the rule's own tie
semantics: its predicate compares `a.score === b.score && a.time === b.time`,
but ACM standings carry no `score` field (so that comparison is always true),
whereas `acm.ranked` compares `accept` and `time`.  Two standings with equal
total time but different accept counts are tied by `scoreboard` (both rank 1)
and not by `ranked` (ranks 1 and 2). -/
theorem acm_scoreboard_tie_mismatch :
    acmStanding (acmStat false ⟨0, 1000000, none, false, [1, 2], none, 0, []⟩ 0
        [⟨100000, 1, 100, STATUS_ACCEPTED, 0⟩, ⟨200000, 2, 100, STATUS_ACCEPTED, 0⟩])
      = ⟨none, some 2, some 300⟩
    ∧ acmStanding (acmStat false ⟨0, 1000000, none, false, [1, 2], none, 0, []⟩ 0
        [⟨300000, 1, 100, STATUS_ACCEPTED, 0⟩])
      = ⟨none, some 1, some 300⟩
    ∧ rankedList acmScoreboardTie
        [⟨none, some 2, some 300⟩, ⟨none, some 1, some 300⟩]
      = [(1, ⟨none, some 2, some 300⟩), (1, ⟨none, some 1, some 300⟩)]
    ∧ rankedList acmRankedTie
        [⟨none, some 2, some 300⟩, ⟨none, some 1, some 300⟩]
      = [(1, ⟨none, some 2, some 300⟩), (2, ⟨none, some 1, some 300⟩)] := by
  decide

/-- C7 — `buildContestRule` composition: every data field of the derived rule
is the base's value overridden by the supplied definition; the four function
fields are taken from the definition or the base's `_originalRule` and bound
to the derived rule, so a derived rule overriding only `scoreboardRow` (resp.
only `stat`) has its own version invoked from the inherited `scoreboard`.
Concretely, the built `ioi` rule (overriding only `submitAfterAccept`)
inherits `oi`'s `stat` yet observes `submitAfterAccept = false`: on a journal
whose later resubmission scores lower, `ioi` keeps the best (100) while `oi`
keeps the latest (50). -/
theorem buildContestRule_virtual_dispatch :
    (∀ (H R S B : Type) (d : RuleDefn H R S B) (base : BuiltRule H R S B),
      (buildContestRuleDerived d base).data.TEXT = d.TEXT.getD base.data.TEXT
      ∧ (buildContestRuleDerived d base).data.hidden = d.hidden.getD base.data.hidden
      ∧ (buildContestRuleDerived d base).data.submitAfterAccept
          = d.submitAfterAccept.getD base.data.submitAfterAccept
      ∧ (buildContestRuleDerived d base).data.showScoreboard
          = d.showScoreboard.getD base.data.showScoreboard
      ∧ (buildContestRuleDerived d base).stat
          = (d.stat.getD base.origFuncs.stat) (buildContestRuleDerived d base).data
      ∧ (buildContestRuleDerived d base).scoreboardHeader
          = (d.scoreboardHeader.getD base.origFuncs.scoreboardHeader)
              (buildContestRuleDerived d base).data
      ∧ (buildContestRuleDerived d base).scoreboardRow
          = (d.scoreboardRow.getD base.origFuncs.scoreboardRow)
              (buildContestRuleDerived d base).data
      ∧ (∀ rowF, d.scoreboardRow = some rowF → d.scoreboard = none →
          (buildContestRuleDerived d base).scoreboard
            = base.origFuncs.scoreboard (buildContestRuleDerived d base).data
                (buildContestRuleDerived d base).scoreboardHeader
                (rowF (buildContestRuleDerived d base).data))
      ∧ (∀ statF, d.stat = some statF →
          (buildContestRuleDerived d base).stat
            = statF (buildContestRuleDerived d base).data))
    ∧ ioiBuilt.stat = (fun t now j => oiStat false t now j)
    ∧ (ioiBuilt.stat ⟨0, 1000000, none, false, [1], none, 0, []⟩ 0
        [⟨100, 1, 100, STATUS_WRONG_ANSWER⟩, ⟨200, 1, 50, STATUS_WRONG_ANSWER⟩]).score = 100
    ∧ (oiBuilt.stat ⟨0, 1000000, none, false, [1], none, 0, []⟩ 0
        [⟨100, 1, 100, STATUS_WRONG_ANSWER⟩, ⟨200, 1, 50, STATUS_WRONG_ANSWER⟩]).score = 50 := by
  refine ⟨fun H R S B d base => ⟨rfl, rfl, rfl, rfl, rfl, rfl, rfl, ?_, ?_⟩, rfl, by decide, by decide⟩
  · intro rowF h₁ h₂
    simp [buildContestRuleDerived, h₁, h₂]
  · intro statF h₁
    simp [buildContestRuleDerived, h₁]

/-- C7 witness: the generic dispatch conclusion instantiated at a concrete
base rule and a derived definition overriding only `scoreboardRow`. -/
theorem buildContestRule_virtual_dispatch_witness :
    (buildContestRuleDerived demoDerivedDefn demoBaseRule).scoreboard
      = demoBaseRule.origFuncs.scoreboard
          (buildContestRuleDerived demoDerivedDefn demoBaseRule).data
          (buildContestRuleDerived demoDerivedDefn demoBaseRule).scoreboardHeader
          (demoRowFunc (buildContestRuleDerived demoDerivedDefn demoBaseRule).data) :=
  ((buildContestRule_virtual_dispatch.1 Unit Nat Unit Nat demoDerivedDefn
      demoBaseRule).2.2.2.2.2.2.2.1) demoRowFunc rfl rfl

/-- C9 (counterexample) — `edit` performs no `beginAt >= endAt` check: editing
an existing contest to `beginAt = 10, endAt = 5` succeeds (no
`ValidationError`), leaving a stored contest violating `beginAt < endAt`. -/
theorem edit_accepts_inverted_interval :
    exOk (editContest ⟨none, some 10, some 5⟩ (some ⟨"acm", 0, 100, []⟩)) = true
    ∧ editContest ⟨none, some 10, some 5⟩ (some ⟨"acm", 0, 100, []⟩)
        = .ok ⟨"acm", 10, 5, []⟩ :=
  ⟨rfl, rfl⟩

/-- C9 (amended) — `add` raises `ValidationError` exactly on an unknown rule
name or `beginAt >= endAt` (and stores nothing in that case); `edit` of an
existing contest raises `ValidationError` exactly on an unknown `$set.rule`,
performing no `beginAt`/`endAt` comparison; the rules' `check` hooks are
no-ops, and no such validation occurs in any `stat`. -/
theorem add_edit_validation (rule : String) (beginAt endAt : Int)
    (pids : List Nat) (s : EditSet) (t : StoredContest) :
    exOk (addContest rule beginAt endAt pids)
      = (ruleExists rule && decide (beginAt < endAt))
    ∧ exOk (editContest s (some t))
      = (match s.rule with | some r => ruleExists r | none => true) := by
  constructor
  · unfold addContest
    by_cases h : ruleExists rule = true
    · by_cases hb : beginAt ≥ endAt
      · simp [h, hb, exOk]
      · simp [h, hb, exOk]
        omega
    · simp only [Bool.not_eq_true] at h
      simp [h, exOk]
  · unfold editContest
    match hs : s.rule with
    | some r =>
      by_cases h : ruleExists r = true
      · simp [h, exOk]
      · simp only [Bool.not_eq_true] at h
        simp [h, exOk]
    | none => simp [exOk]

end Hydro
